import Mathlib

/-
Verification of the core logic of the budget-spreadsheet component
(src/app/app.ts, data model in src/app/app.types.ts).

Months are handled in the source as strings of form yyyy-MM, parsed with
luxon (DateTime.fromFormat). We embed a parsed month as a (year, month)
pair; luxon ordering, diff in months and plus-months on first-of-month
dates coincide with ordering and arithmetic on the absolute month index
year * 12 + (month - 1).
-/

namespace Budget

/-- A calendar month: the parsed form of a yyyy-MM string. -/
structure Month where
  year : Int
  month : Nat
  deriving DecidableEq, Repr

/-- A month is well formed when its month component lies between 1 and 12,
    which is what parsing a valid yyyy-MM string yields. -/
def Month.wellFormed (m : Month) : Prop := 1 ≤ m.month ∧ m.month ≤ 12

instance (m : Month) : Decidable m.wellFormed :=
  inferInstanceAs (Decidable (1 ≤ m.month ∧ m.month ≤ 12))

/-- Absolute month index.  luxon comparison of first-of-month DateTimes and
    diff(..., months).months agree with comparison and subtraction of this index. -/
def Month.idx (m : Month) : Int := m.year * 12 + (m.month : Int) - 1

/-- The month with a given absolute index (what luxon plus-months followed by
    toFormat yyyy-MM produces). -/
def Month.ofIdx (i : Int) : Month := ⟨i / 12, (i % 12).toNat + 1⟩

/-- DateTime.plus with a number of months, on the first of a month. -/
def Month.addMonths (m : Month) (k : Nat) : Month := Month.ofIdx (m.idx + k)

/-- The calendar successor of a month, rolling over the year boundary. -/
def Month.next (m : Month) : Month :=
  if m.month = 12 then ⟨m.year + 1, 1⟩ else ⟨m.year, m.month + 1⟩

/-- getRangeValues (app.ts:216-227): months between start and end inclusive.
    diff is endValue.diff(startValue, months).months, a whole number on
    first-of-month dates; the loop pushes startValue.plus(months i) for
    i = 0..diff and runs zero times when diff is negative. -/
def getRangeValues (s e : Month) : List Month :=
  let diff := e.idx - s.idx
  if diff < 0 then [] else (List.range (diff.toNat + 1)).map (fun i => s.addMonths i)

/-- Number of whole months from s to e (nonnegative case). -/
def monthsBetween (s e : Month) : Nat := (e.idx - s.idx).toNat

/-
JavaScript numeric model for aggregation.  The reduce in subTotalIncome and
subTotalExpense (app.ts:55, app.ts:74) is a + Number(b.value) followed by
an or-zero fallback.  Number of a malformed entry is NaN, NaN propagates
through addition, and both NaN and 0 are falsy, so x or-zero 0 yields 0.
-/

/-- Raw content of a value field as JavaScript sees it before Number coercion. -/
inductive RawVal where
  | num (n : Int)
  | strEmpty
  | strBad
  | nullV
  | undefV
  deriving DecidableEq, Repr

/-- JavaScript numbers restricted to what aggregation produces: an integer or NaN. -/
inductive JSNum where
  | nan
  | val (n : Int)
  deriving DecidableEq, Repr

/-- Number(x) coercion: numbers stay, the empty string and null give 0, a
    non-numeric string and undefined give NaN. -/
def RawVal.toNumber : RawVal → JSNum
  | .num n => .val n
  | .strEmpty => .val 0
  | .strBad => .nan
  | .nullV => .val 0
  | .undefV => .nan

/-- JavaScript addition on integer-or-NaN values: NaN propagates. -/
def JSNum.add : JSNum → JSNum → JSNum
  | .val a, .val b => .val (a + b)
  | _, _ => .nan

/-- JavaScript x or-zero on an aggregation result: NaN and 0 are falsy, so both
    become 0; every other integer is returned unchanged. -/
def JSNum.orZero : JSNum → Int
  | .nan => 0
  | .val n => n

/- Data model (app.types.ts). -/

/-- One value slot of a child category: a (time, value) form group. -/
structure ValueSlot where
  time : Month
  value : RawVal
  deriving DecidableEq, Repr

/-- IChildCategory (app.types.ts). -/
structure IChildCategory where
  label : String
  values : List ValueSlot
  deriving DecidableEq, Repr

/-- IParentCategory (app.types.ts). -/
structure IParentCategory where
  label : String
  children : List IChildCategory
  deriving DecidableEq, Repr

/-- One record of the flattened hierarchy, the element type of the
    incomeChildren and expenseChildren signals (app.ts:40-41). -/
structure FlatRecord where
  label : String
  value : RawVal
  parent : String
  time : Month
  deriving DecidableEq, Repr

/-- Flattener (app.ts:163-203): one record per value slot of every child of
    every parent, in hierarchy order. -/
def flattenChildren (parents : List IParentCategory) : List FlatRecord :=
  parents.flatMap fun item =>
    item.children.flatMap fun child =>
      child.values.map fun valueItem => ⟨child.label, valueItem.value, item.label, valueItem.time⟩

/-- One row of the subtotal table (app.ts:48). -/
structure SubTotalRecord where
  parent : String
  range : Month
  total : Int
  deriving DecidableEq, Repr

/-- Total of one (parent, month) cell (app.ts:52-55 and 71-74): filter the
    flattened records by parent and time, reduce with a + Number(b.value)
    from 0, then apply the JS or-zero fallback. -/
def cellTotal (records : List FlatRecord) (parent : String) (range : Month) : Int :=
  ((records.filter fun item => item.parent = parent ∧ item.time = range).foldl
      (fun a b => a.add b.value.toNumber) (JSNum.val 0)).orZero

/-- subTotalIncome / subTotalExpense (app.ts:43-79): one row per
    (range, parent) pair, ranges in the outer loop, parents in the inner loop. -/
def subTotal (ranges : List Month) (parents : List String)
    (records : List FlatRecord) : List SubTotalRecord :=
  ranges.flatMap fun range =>
    parents.map fun parent => ⟨parent, range, cellTotal records parent range⟩

/-- totalIncomeValue / totalExpenseValue (app.ts:82-102): per month of the
    range, the sum of that month's subtotal rows.  The subtotal field is
    always an integer (cellTotal ends in orZero), so Number(b.total) is the
    identity and the trailing or-zero keeps the integer sum. -/
def totalValue (ranges : List Month) (subs : List SubTotalRecord) : List (Month × Int) :=
  ranges.map fun range =>
    (range, (subs.filter fun item => item.range = range).foldl (fun a b => a + b.total) 0)

/-- Map.get(k) followed by the JS or-zero default (a missing key is undefined,
    hence 0; a stored 0 is falsy, hence also 0, which equals itself). -/
def lookupOr0 (m : List (Month × Int)) (k : Month) : Int :=
  match m.lookup k with
  | some v => v
  | none => 0

/-- profitLossValue (app.ts:104-116): per month, income total minus expense total. -/
def profitLossValue (ranges : List Month) (income expense : List (Month × Int)) :
    List (Month × Int) :=
  ranges.map fun range => (range, lookupOr0 income range - lookupOr0 expense range)

/-- Opening and closing balance of one month (app.ts:126). -/
structure Balance where
  opening : Int
  closing : Int
  deriving DecidableEq, Repr

/-- Scan underlying openCloseBalance: the month at index 0 opens at 0; every
    later month opens at the closing balance the previous iteration stored for
    the previous range (data.get of that range returns exactly the entry set on
    the previous iteration, and the trailing or-zero is the identity on its
    integer closing field), so the carried accumulator is that closing balance. -/
def openCloseScan (pl : List (Month × Int)) : Int → List Month → List (Month × Balance)
  | _, [] => []
  | opening, range :: rest =>
    (range, ⟨opening, opening + lookupOr0 pl range⟩) ::
      openCloseScan pl (opening + lookupOr0 pl range) rest

/-- openCloseBalance (app.ts:119-133). -/
def openCloseBalance (ranges : List Month) (pl : List (Month × Int)) :
    List (Month × Balance) :=
  openCloseScan pl 0 ranges

/-
Hierarchy reconciler (updateChildrenForNewRanges, app.ts:308-369).  The
function walks every child of every parent of the income form and then of
the expense form and updates the child's slot list in place; the two
per-child transformations below embed the loop bodies.
-/

/-- Per-child slot update of the income branch of updateChildrenForNewRanges
    (app.ts:310-339).  existingTimes is read once up front (line 314); each
    range month not already present is inserted with value 0, at the front when
    it is earlier than the first existing time, else at the back (lines
    316-328); then each existing time that left the range is removed at its
    first index (lines 330-337).  The comparison on lines 319-322 reads
    existingTimes[0]; on a child with no slots that is undefined and
    DateTime.fromFormat throws, rendered here as none. -/
def reconcileIncomeChild (ranges : List Month) (values : List ValueSlot) :
    Option (List ValueSlot) :=
  let existingTimes := values.map fun item => item.time
  let afterAdd := ranges.foldl (fun acc range =>
    acc.bind fun vs =>
      if range ∈ existingTimes then some vs
      else
        match existingTimes.head? with
        | none => none
        | some t0 =>
          if range.idx < t0.idx then some (⟨range, RawVal.num 0⟩ :: vs)
          else some (vs ++ [⟨range, RawVal.num 0⟩])) (some values)
  afterAdd.map fun vs =>
    existingTimes.foldl (fun vs2 range =>
      if range ∈ ranges then vs2
      else vs2.eraseP fun v => v.time = range) vs

/-- Per-child slot update of the expense branch of updateChildrenForNewRanges
    (app.ts:342-368).  Identical to the income branch except that its add loop
    (lines 348-357) has no presence check: a zero slot is created for every
    month of the new range, whether or not the child already holds that month. -/
def reconcileExpenseChild (ranges : List Month) (values : List ValueSlot) :
    Option (List ValueSlot) :=
  let existingTimes := values.map fun item => item.time
  let afterAdd := ranges.foldl (fun acc range =>
    acc.bind fun vs =>
      match existingTimes.head? with
      | none => none
      | some t0 =>
        if range.idx < t0.idx then some (⟨range, RawVal.num 0⟩ :: vs)
        else some (vs ++ [⟨range, RawVal.num 0⟩])) (some values)
  afterAdd.map fun vs =>
    existingTimes.foldl (fun vs2 range =>
      if range ∈ ranges then vs2
      else vs2.eraseP fun v => v.time = range) vs

/-- Slots for 2024-01 .. 2024-06 with values 1 .. 6, the spec's
    reconciliation example. -/
def janToJunSlots : List ValueSlot :=
  [⟨⟨2024, 1⟩, RawVal.num 1⟩, ⟨⟨2024, 2⟩, RawVal.num 2⟩, ⟨⟨2024, 3⟩, RawVal.num 3⟩,
   ⟨⟨2024, 4⟩, RawVal.num 4⟩, ⟨⟨2024, 5⟩, RawVal.num 5⟩, ⟨⟨2024, 6⟩, RawVal.num 6⟩]

/-- The new range 2024-03 .. 2024-08 of the spec's reconciliation example. -/
def marToAugRange : List Month :=
  [⟨2024, 3⟩, ⟨2024, 4⟩, ⟨2024, 5⟩, ⟨2024, 6⟩, ⟨2024, 7⟩, ⟨2024, 8⟩]

/-
State-level operations: copy and paste of a child (app.ts:392-431) and the
add-child actions (app.ts:243-279).  The reactive form arrays are embedded
as lists; controls.find picks the first parent control whose label matches,
and mutating the found control is embedded as updating the first matching
list entry.
-/

/-- The two category trees (the string union type income | expense in the source). -/
inductive Side where
  | income
  | expense
  deriving DecidableEq, Repr

/-- The component state the embedded operations touch: the two parent form
    arrays, the copy buffer signal (app.ts:34) and the current month range. -/
structure AppState where
  incomeParents : List IParentCategory
  expenseParents : List IParentCategory
  copyData : Option IChildCategory
  ranges : List Month
  deriving DecidableEq, Repr

/-- The parent list of one side. -/
def AppState.sideParents (s : AppState) : Side → List IParentCategory
  | .income => s.incomeParents
  | .expense => s.expenseParents

/-- Update the first parent whose label matches by f; without a match the list
    is unchanged (the if (parentForm) guard of the source). -/
def updateFirst (lbl : String) (f : IParentCategory → IParentCategory) :
    List IParentCategory → List IParentCategory
  | [] => []
  | p :: ps => if p.label = lbl then f p :: ps else p :: updateFirst lbl f ps

/-- copyChild (app.ts:392-403): store the value of the child at the index under
    the first parent with the given label into the copy buffer.  Without a
    matching parent nothing happens; with an out-of-range index,
    childrenArray.at(index) is undefined and reading its value throws, which
    this embedding renders as none. -/
def copyChild (s : AppState) (parent : String) (index : Nat) (side : Side) :
    Option AppState :=
  match (s.sideParents side).find? (fun item => item.label = parent) with
  | none => some s
  | some parentForm =>
    match parentForm.children[index]? with
    | none => none
    | some childValue => some { s with copyData := some childValue }

/-- pasteChild (app.ts:405-431): no-op on an empty buffer; otherwise, under the
    first parent with the given label, remove the child at the index and insert
    at the same index a child rebuilt from the snapshot's label and values
    (one fresh group per snapshot slot, in order). -/
def pasteChild (s : AppState) (parent : String) (index : Nat) (side : Side) :
    AppState :=
  match s.copyData with
  | none => s
  | some dataToPaste =>
    let rebuilt : IChildCategory :=
      ⟨dataToPaste.label, dataToPaste.values.map fun data => ⟨data.time, data.value⟩⟩
    let upd := updateFirst parent fun p =>
      { p with children := (p.children.eraseIdx index).insertIdx index rebuilt }
    match side with
    | .income => { s with incomeParents := upd s.incomeParents }
    | .expense => { s with expenseParents := upd s.expenseParents }

/-- Child group created by the add-child actions (app.ts:252-256 and 271-275):
    empty label and one zero slot per month of the iterated ranges. -/
def newChild (ranges : List Month) : IChildCategory :=
  ⟨"", ranges.map fun value => ⟨value, RawVal.num 0⟩⟩

/-- Push one fresh child onto the first parent with the given label. -/
def pushChild (ranges : List Month) (lbl : String)
    (ps : List IParentCategory) : List IParentCategory :=
  updateFirst lbl (fun p => { p with children := p.children ++ [newChild ranges] }) ps

/-- addIncomeChild (app.ts:243-260): iterate the given parent label, or by
    default every income parent label, and push a fresh child (one zero slot
    per month of the given range, or of the current ranges) onto the first
    income parent with each label. -/
def addIncomeChild (s : AppState) (parent : Option String) (range : Option Month) :
    AppState :=
  let ranges : List Month := match range with | some r => [r] | none => s.ranges
  let parents : List String := match parent with
    | some p => [p]
    | none => s.incomeParents.map fun item => item.label
  { s with incomeParents :=
      parents.foldl (fun ps lbl => pushChild ranges lbl ps) s.incomeParents }

/-- addExpenseChild (app.ts:262-279): like addIncomeChild with the pushes going
    to the expense form, except that the default label list on line 264 is read
    from the INCOME parent form, not the expense form. -/
def addExpenseChild (s : AppState) (parent : Option String) (range : Option Month) :
    AppState :=
  let ranges : List Month := match range with | some r => [r] | none => s.ranges
  let parents : List String := match parent with
    | some p => [p]
    | none => s.incomeParents.map fun item => item.label
  { s with expenseParents :=
      parents.foldl (fun ps lbl => pushChild ranges lbl ps) s.expenseParents }

/- Theorems. -/

theorem Month.idx_ofIdx (i : Int) : (Month.ofIdx i).idx = i := by
  simp only [Month.ofIdx, Month.idx]
  omega

theorem Month.ofIdx_idx (m : Month) (hm : m.wellFormed) : Month.ofIdx m.idx = m := by
  have h1 : 1 ≤ m.month := hm.1
  have h2 : m.month ≤ 12 := hm.2
  obtain ⟨y, mo⟩ := m
  simp only [Month.ofIdx, Month.idx, Month.mk.injEq] at h1 h2 ⊢
  constructor <;> omega

theorem Month.wellFormed_ofIdx (i : Int) : (Month.ofIdx i).wellFormed := by
  simp only [Month.ofIdx, Month.wellFormed]
  omega

theorem Month.ofIdx_succ (i : Int) : Month.ofIdx (i + 1) = (Month.ofIdx i).next := by
  simp only [Month.ofIdx, Month.next]
  split <;> (rename_i h; simp only [Month.mk.injEq]; constructor <;> omega)

theorem getRangeValues_eq_map (s e : Month) (h : s.idx ≤ e.idx) :
    getRangeValues s e = (List.range (monthsBetween s e + 1)).map (fun i => s.addMonths i) := by
  simp only [getRangeValues, monthsBetween]
  rw [if_neg (by omega)]

/-- C4: for well-formed start ≤ end, the month-range generator returns a list of
    length monthsBetween(start, end) + 1 that begins with start, ends with end, and
    in which every element is followed by its calendar successor (hence the list is
    strictly chronologically increasing by one month per step, with correct
    year rollover). -/
theorem getRangeValues_spec (s e : Month) (hs : s.wellFormed) (he : e.wellFormed)
    (h : s.idx ≤ e.idx) :
    (getRangeValues s e).length = monthsBetween s e + 1 ∧
    (getRangeValues s e).head? = some s ∧
    (getRangeValues s e).getLast? = some e ∧
    ∀ i, (hi : i + 1 < (getRangeValues s e).length) →
      (getRangeValues s e).get ⟨i + 1, hi⟩ =
        ((getRangeValues s e).get ⟨i, by omega⟩).next := by
  rw [getRangeValues_eq_map s e h]
  refine ⟨by simp, ?_, ?_, ?_⟩
  · rw [List.range_succ_eq_map]
    simp only [List.map_cons, List.head?_cons, Option.some.injEq]
    show Month.ofIdx (s.idx + (0 : Nat)) = s
    rw [Int.ofNat_zero, Int.add_zero, Month.ofIdx_idx s hs]
  · rw [List.range_succ, List.map_append, List.map_cons, List.map_nil,
      List.getLast?_concat]
    simp only [Option.some.injEq]
    show Month.ofIdx (s.idx + (monthsBetween s e : Int)) = e
    have : s.idx + (monthsBetween s e : Int) = e.idx := by
      simp only [monthsBetween]; omega
    rw [this, Month.ofIdx_idx e he]
  · intro i hi
    simp only [List.get_eq_getElem, List.getElem_map, List.getElem_range]
    show Month.ofIdx (s.idx + ((i + 1 : Nat) : Int)) = (Month.ofIdx (s.idx + (i : Nat))).next
    rw [← Month.ofIdx_succ]
    congr 1
    omega

/-- Witness for C4 on the year-rollover range 2024-11 .. 2025-01. -/
theorem getRangeValues_spec_witness :
    (Month.mk 2024 11).wellFormed ∧ (Month.mk 2025 1).wellFormed ∧
    (Month.mk 2024 11).idx ≤ (Month.mk 2025 1).idx ∧
    ((getRangeValues ⟨2024, 11⟩ ⟨2025, 1⟩).length =
        monthsBetween ⟨2024, 11⟩ ⟨2025, 1⟩ + 1 ∧
      (getRangeValues ⟨2024, 11⟩ ⟨2025, 1⟩).head? = some ⟨2024, 11⟩ ∧
      (getRangeValues ⟨2024, 11⟩ ⟨2025, 1⟩).getLast? = some ⟨2025, 1⟩ ∧
      ∀ i, (hi : i + 1 < (getRangeValues ⟨2024, 11⟩ ⟨2025, 1⟩).length) →
        (getRangeValues ⟨2024, 11⟩ ⟨2025, 1⟩).get ⟨i + 1, hi⟩ =
          ((getRangeValues ⟨2024, 11⟩ ⟨2025, 1⟩).get ⟨i, by omega⟩).next) :=
  ⟨by decide, by decide, by decide,
    getRangeValues_spec ⟨2024, 11⟩ ⟨2025, 1⟩ (by decide) (by decide) (by decide)⟩

/-- C5: when end is chronologically before start the generator yields the empty
    sequence (the loop guard 0 <= diff fails immediately, no error is raised),
    and every downstream aggregate over that range is empty. -/
theorem getRangeValues_empty_spec (s e : Month) (h : e.idx < s.idx)
    (parents : List String) (records : List FlatRecord)
    (subs : List SubTotalRecord) (income expense pl : List (Month × Int)) :
    getRangeValues s e = [] ∧
    subTotal (getRangeValues s e) parents records = [] ∧
    totalValue (getRangeValues s e) subs = [] ∧
    profitLossValue (getRangeValues s e) income expense = [] ∧
    openCloseBalance (getRangeValues s e) pl = [] := by
  have h0 : getRangeValues s e = [] := by
    simp only [getRangeValues]
    rw [if_pos (by omega)]
  refine ⟨h0, ?_, ?_, ?_, ?_⟩ <;>
    simp [h0, subTotal, totalValue, profitLossValue, openCloseBalance, openCloseScan]

/-- Witness for C5 on the inverted range 2024-12 .. 2024-01. -/
theorem getRangeValues_empty_spec_witness :
    (Month.mk 2024 1).idx < (Month.mk 2024 12).idx ∧
    (getRangeValues ⟨2024, 12⟩ ⟨2024, 1⟩ = [] ∧
      subTotal (getRangeValues ⟨2024, 12⟩ ⟨2024, 1⟩) [("Incomes")] [] = [] ∧
      totalValue (getRangeValues ⟨2024, 12⟩ ⟨2024, 1⟩) [] = [] ∧
      profitLossValue (getRangeValues ⟨2024, 12⟩ ⟨2024, 1⟩) [] [] = [] ∧
      openCloseBalance (getRangeValues ⟨2024, 12⟩ ⟨2024, 1⟩) [] = []) :=
  ⟨by decide, getRangeValues_empty_spec ⟨2024, 12⟩ ⟨2024, 1⟩ (by decide) [("Incomes")] [] [] [] [] []⟩

/- Helper lemmas about the JS reduce. -/

theorem JSNum.add_nan (a : JSNum) : a.add JSNum.nan = JSNum.nan := by
  cases a <;> rfl

theorem JSNum.nan_add (a : JSNum) : JSNum.nan.add a = JSNum.nan := by
  cases a <;> rfl

theorem foldl_add_val (g : FlatRecord → Int) (l : List FlatRecord) :
    ∀ a : Int, (∀ r ∈ l, r.value.toNumber = JSNum.val (g r)) →
      l.foldl (fun acc b => acc.add b.value.toNumber) (JSNum.val a) =
        JSNum.val (a + (l.map g).sum) := by
  induction l with
  | nil => intro a _; simp
  | cons r t ih =>
    intro a h
    simp only [List.foldl_cons, List.map_cons, List.sum_cons]
    rw [h r (List.mem_cons_self r t)]
    rw [show JSNum.add (JSNum.val a) (JSNum.val (g r)) = JSNum.val (a + g r) from rfl]
    rw [ih (a + g r) (fun x hx => h x (List.mem_cons_of_mem r hx))]
    rw [add_assoc]

theorem foldl_add_from_nan (l : List FlatRecord) :
    l.foldl (fun acc b => acc.add b.value.toNumber) JSNum.nan = JSNum.nan := by
  induction l with
  | nil => rfl
  | cons r t ih =>
    simp only [List.foldl_cons]
    rw [JSNum.nan_add, ih]

theorem foldl_add_nan_of_mem (l : List FlatRecord) (r : FlatRecord) (hr : r ∈ l)
    (hnan : r.value.toNumber = JSNum.nan) :
    ∀ a : JSNum, l.foldl (fun acc b => acc.add b.value.toNumber) a = JSNum.nan := by
  induction l with
  | nil => cases hr
  | cons x t ih =>
    intro a
    simp only [List.foldl_cons]
    rcases List.mem_cons.mp hr with h | h
    · rw [← h, hnan, JSNum.add_nan, foldl_add_from_nan]
    · exact ih h _

/-- C6: for every month of the range and every parent label, the subtotal table
    contains the row for that (parent, month) pair, and when every matching
    flattened record carries a well-formed numeric value its total is the plain
    sum of those values; with no matching records the total is 0. -/
theorem subTotal_spec (ranges : List Month) (parents : List String)
    (records : List FlatRecord) (g : FlatRecord → Int) (parent : String) (range : Month)
    (h1 : range ∈ ranges) (h2 : parent ∈ parents)
    (hv : ∀ r ∈ records, r.value = RawVal.num (g r)) :
    (⟨parent, range, cellTotal records parent range⟩ : SubTotalRecord) ∈
        subTotal ranges parents records ∧
    cellTotal records parent range =
      ((records.filter fun r => r.parent = parent ∧ r.time = range).map g).sum ∧
    ((records.filter fun r => r.parent = parent ∧ r.time = range) = [] →
      cellTotal records parent range = 0) := by
  have hg : ∀ r ∈ (records.filter fun r => r.parent = parent ∧ r.time = range),
      r.value.toNumber = JSNum.val (g r) := by
    intro r hr
    rw [hv r (List.mem_of_mem_filter hr)]
    rfl
  refine ⟨?_, ?_, ?_⟩
  · simp only [subTotal, List.mem_flatMap]
    exact ⟨range, h1, List.mem_map.mpr ⟨parent, h2, rfl⟩⟩
  · unfold cellTotal
    rw [foldl_add_val g _ 0 hg]
    simp [JSNum.orZero]
  · intro h
    unfold cellTotal
    rw [h]
    rfl

/-- Witness for C6: two children of parent P valued 100 and 50 in 2024-01 give
    subtotal 150; an empty record set gives subtotal 0. -/
theorem subTotal_spec_witness :
    cellTotal [⟨("a"), RawVal.num 100, ("P"), ⟨2024, 1⟩⟩,
        ⟨("b"), RawVal.num 50, ("P"), ⟨2024, 1⟩⟩] ("P") ⟨2024, 1⟩ = 150 ∧
    cellTotal [] ("Q") ⟨2024, 1⟩ = 0 := by
  constructor
  · rw [(subTotal_spec [⟨2024, 1⟩] [("P")]
      [⟨("a"), RawVal.num 100, ("P"), ⟨2024, 1⟩⟩, ⟨("b"), RawVal.num 50, ("P"), ⟨2024, 1⟩⟩]
      (fun r => match r.value with | RawVal.num n => n | _ => 0)
      ("P") ⟨2024, 1⟩ (by decide) (by decide) (by decide)).2.1]
    decide
  · exact (subTotal_spec [⟨2024, 1⟩] [("Q")] [] (fun _ => 0) ("Q") ⟨2024, 1⟩
      (by decide) (by decide) (by decide)).2.2 rfl

/- Helper lemmas about the opening/closing scan. -/

theorem openCloseScan_map_fst (pl : List (Month × Int)) :
    ∀ (o : Int) (rs : List Month), (openCloseScan pl o rs).map Prod.fst = rs := by
  intro o rs
  induction rs generalizing o with
  | nil => rfl
  | cons r t ih => simp only [openCloseScan, List.map_cons, ih]

theorem openCloseScan_head_opening (pl : List (Month × Int)) (o : Int) (rs : List Month)
    (y : Month × Balance) (hy : (openCloseScan pl o rs).head? = some y) :
    y.2.opening = o := by
  cases rs with
  | nil => simp [openCloseScan] at hy
  | cons r t =>
    simp only [openCloseScan, List.head?_cons, Option.some.injEq] at hy
    rw [← hy]

theorem openCloseScan_closing (pl : List (Month × Int)) :
    ∀ (o : Int) (rs : List Month), ∀ p ∈ openCloseScan pl o rs,
      p.2.closing = p.2.opening + lookupOr0 pl p.1 := by
  intro o rs
  induction rs generalizing o with
  | nil => intro p hp; simp [openCloseScan] at hp
  | cons r t ih =>
    intro p hp
    rcases List.mem_cons.mp hp with h | h
    · rw [h]
    · exact ih _ p h

theorem openCloseScan_chain (pl : List (Month × Int)) :
    ∀ (o : Int) (rs : List Month),
      List.Chain' (fun a b : Month × Balance => b.2.opening = a.2.closing)
        (openCloseScan pl o rs) := by
  intro o rs
  induction rs generalizing o with
  | nil => simp [openCloseScan]
  | cons r t ih =>
    rw [show openCloseScan pl o (r :: t) =
      (r, ⟨o, o + lookupOr0 pl r⟩) :: openCloseScan pl (o + lookupOr0 pl r) t from rfl]
    rw [List.chain'_cons']
    refine ⟨?_, ih _⟩
    intro y hy
    exact openCloseScan_head_opening pl _ t y (Option.mem_def.mp hy)

/-- C7: openCloseBalance is the sequential left-to-right scan of the month range
    in order: its months are exactly the range, the first month opens at 0,
    every month closes at its opening plus that month's profit/loss, and every
    subsequent month opens at the previous month's closing balance. -/
theorem openCloseBalance_spec (ranges : List Month) (pl : List (Month × Int)) :
    (openCloseBalance ranges pl).map Prod.fst = ranges ∧
    (∀ y ∈ (openCloseBalance ranges pl).head?, y.2.opening = 0) ∧
    (∀ p ∈ openCloseBalance ranges pl, p.2.closing = p.2.opening + lookupOr0 pl p.1) ∧
    List.Chain' (fun a b : Month × Balance => b.2.opening = a.2.closing)
      (openCloseBalance ranges pl) := by
  refine ⟨openCloseScan_map_fst pl 0 ranges, ?_, ?_, openCloseScan_chain pl 0 ranges⟩
  · intro y hy
    exact openCloseScan_head_opening pl 0 ranges y (Option.mem_def.mp hy)
  · intro p hp
    exact openCloseScan_closing pl 0 ranges p hp

/-- Witness for C7 on the spec example profitLoss Jan 100, Feb -30. -/
theorem openCloseBalance_spec_witness :
    (openCloseBalance [(⟨2024, 1⟩ : Month), ⟨2024, 2⟩]
        [((⟨2024, 1⟩ : Month), 100), ((⟨2024, 2⟩ : Month), -30)]).map Prod.fst =
      [(⟨2024, 1⟩ : Month), ⟨2024, 2⟩] ∧
    (∀ y ∈ (openCloseBalance [(⟨2024, 1⟩ : Month), ⟨2024, 2⟩]
        [((⟨2024, 1⟩ : Month), 100), ((⟨2024, 2⟩ : Month), -30)]).head?, y.2.opening = 0) ∧
    (∀ p ∈ openCloseBalance [(⟨2024, 1⟩ : Month), ⟨2024, 2⟩]
        [((⟨2024, 1⟩ : Month), 100), ((⟨2024, 2⟩ : Month), -30)],
      p.2.closing = p.2.opening +
        lookupOr0 [((⟨2024, 1⟩ : Month), 100), ((⟨2024, 2⟩ : Month), -30)] p.1) ∧
    List.Chain' (fun a b : Month × Balance => b.2.opening = a.2.closing)
      (openCloseBalance [(⟨2024, 1⟩ : Month), ⟨2024, 2⟩]
        [((⟨2024, 1⟩ : Month), 100), ((⟨2024, 2⟩ : Month), -30)]) :=
  openCloseBalance_spec [⟨2024, 1⟩, ⟨2024, 2⟩] [(⟨2024, 1⟩, 100), (⟨2024, 2⟩, -30)]

/-- C9 counterexample: a (parent, month) cell holding one malformed entry and
    one well-formed entry of 100 aggregates to 0, not to the well-formed 100:
    Number coercion of the malformed entry is NaN, NaN propagates through the
    reduce, and the or-zero fallback turns the NaN total into 0. -/
theorem cellTotal_malformed_counterexample :
    cellTotal [⟨("a"), RawVal.strBad, ("P"), ⟨2024, 1⟩⟩,
        ⟨("b"), RawVal.num 100, ("P"), ⟨2024, 1⟩⟩] ("P") ⟨2024, 1⟩ = 0 ∧
    cellTotal [⟨("a"), RawVal.strBad, ("P"), ⟨2024, 1⟩⟩,
        ⟨("b"), RawVal.num 100, ("P"), ⟨2024, 1⟩⟩] ("P") ⟨2024, 1⟩ ≠ 100 := by
  decide

/-- C9 amended: aggregation is a total function (no exception path); when every
    matching entry's Number coercion is an integer the cell total is their plain
    sum (so empty-string and null entries contribute 0 each), but a single
    NaN-coercing matching entry (non-numeric string or undefined) makes the
    whole (parent, month) cell total 0. -/
theorem cellTotal_coercion_spec (records : List FlatRecord) (parent : String)
    (range : Month) :
    ((∃ r ∈ records.filter (fun r => r.parent = parent ∧ r.time = range),
        r.value.toNumber = JSNum.nan) → cellTotal records parent range = 0) ∧
    (∀ g : FlatRecord → Int,
      (∀ r ∈ records.filter (fun r => r.parent = parent ∧ r.time = range),
        r.value.toNumber = JSNum.val (g r)) →
      cellTotal records parent range =
        ((records.filter (fun r => r.parent = parent ∧ r.time = range)).map g).sum) := by
  constructor
  · rintro ⟨r, hr, hnan⟩
    unfold cellTotal
    rw [foldl_add_nan_of_mem _ r hr hnan (JSNum.val 0)]
    rfl
  · intro g hg
    unfold cellTotal
    rw [foldl_add_val g _ 0 hg]
    simp [JSNum.orZero]

/-- Witness for C9 amended, on a cell with one malformed entry. -/
theorem cellTotal_coercion_spec_witness :
    (∃ r ∈ ([⟨("a"), RawVal.strBad, ("P"), ⟨2024, 1⟩⟩] :
        List FlatRecord).filter (fun r => r.parent = ("P") ∧ r.time = ⟨2024, 1⟩),
      r.value.toNumber = JSNum.nan) ∧
    cellTotal [⟨("a"), RawVal.strBad, ("P"), ⟨2024, 1⟩⟩] ("P") ⟨2024, 1⟩ = 0 :=
  ⟨by decide,
    (cellTotal_coercion_spec [⟨("a"), RawVal.strBad, ("P"), ⟨2024, 1⟩⟩]
      ("P") ⟨2024, 1⟩).1 (by decide)⟩

/-- C1 (code bug): on the spec's own example the income branch fulfils the
    reconciliation contract (2024-01 and 2024-02 removed, 2024-07 and 2024-08
    added with value 0, surviving values untouched), but the expense branch,
    whose add loop lost the presence check of the income branch, also appends a
    zero slot for every month already present: 2024-03 .. 2024-06 each end up
    with two slots instead of the claimed untouched single slot. -/
theorem updateChildren_expense_branch_violation :
    reconcileIncomeChild marToAugRange janToJunSlots =
      some [⟨⟨2024, 3⟩, RawVal.num 3⟩, ⟨⟨2024, 4⟩, RawVal.num 4⟩,
        ⟨⟨2024, 5⟩, RawVal.num 5⟩, ⟨⟨2024, 6⟩, RawVal.num 6⟩,
        ⟨⟨2024, 7⟩, RawVal.num 0⟩, ⟨⟨2024, 8⟩, RawVal.num 0⟩] ∧
    reconcileExpenseChild marToAugRange janToJunSlots =
      some [⟨⟨2024, 3⟩, RawVal.num 3⟩, ⟨⟨2024, 4⟩, RawVal.num 4⟩,
        ⟨⟨2024, 5⟩, RawVal.num 5⟩, ⟨⟨2024, 6⟩, RawVal.num 6⟩,
        ⟨⟨2024, 3⟩, RawVal.num 0⟩, ⟨⟨2024, 4⟩, RawVal.num 0⟩,
        ⟨⟨2024, 5⟩, RawVal.num 0⟩, ⟨⟨2024, 6⟩, RawVal.num 0⟩,
        ⟨⟨2024, 7⟩, RawVal.num 0⟩, ⟨⟨2024, 8⟩, RawVal.num 0⟩] := by
  constructor <;> rfl

/-- C2 (code bug): the per-child transformations of the two trees are not the
    same function: on a child holding one slot for 2024-01 with value 5 and the
    unchanged range [2024-01], the income branch returns the slot list
    unchanged while the expense branch appends a duplicate zero slot. -/
theorem reconcile_income_expense_differ :
    reconcileIncomeChild [⟨2024, 1⟩] [⟨⟨2024, 1⟩, RawVal.num 5⟩] =
      some [⟨⟨2024, 1⟩, RawVal.num 5⟩] ∧
    reconcileExpenseChild [⟨2024, 1⟩] [⟨⟨2024, 1⟩, RawVal.num 5⟩] =
      some [⟨⟨2024, 1⟩, RawVal.num 5⟩, ⟨⟨2024, 1⟩, RawVal.num 0⟩] ∧
    reconcileIncomeChild [⟨2024, 1⟩] [⟨⟨2024, 1⟩, RawVal.num 5⟩] ≠
      reconcileExpenseChild [⟨2024, 1⟩] [⟨⟨2024, 1⟩, RawVal.num 5⟩] := by
  exact ⟨rfl, rfl, by decide⟩

/-- C3 (code bug): the time-uniqueness invariant does not survive the expense
    branch of the reconciler: a child whose slot times [2024-01] are
    duplicate-free comes out of reconciliation against the same range with two
    slots for 2024-01. -/
theorem reconcile_expense_breaks_time_uniqueness :
    ((([⟨⟨2024, 1⟩, RawVal.num 7⟩] : List ValueSlot).map fun v => v.time).Nodup) ∧
    reconcileExpenseChild [⟨2024, 1⟩] [⟨⟨2024, 1⟩, RawVal.num 7⟩] =
      some [⟨⟨2024, 1⟩, RawVal.num 7⟩, ⟨⟨2024, 1⟩, RawVal.num 0⟩] ∧
    ¬ ((([⟨⟨2024, 1⟩, RawVal.num 7⟩, ⟨⟨2024, 1⟩, RawVal.num 0⟩] :
        List ValueSlot).map fun v => v.time).Nodup) := by
  exact ⟨by decide, rfl, by decide⟩

/- Helper lemmas for the state-level operations. -/

theorem map_mk_time_value (l : List ValueSlot) :
    (l.map fun data => (⟨data.time, data.value⟩ : ValueSlot)) = l := by
  induction l with
  | nil => rfl
  | cons a t ih => rw [List.map_cons, ih]

theorem insertIdx_eraseIdx_set {α : Type} (x : α) :
    ∀ (l : List α) (j : Nat), j < l.length →
      (l.eraseIdx j).insertIdx j x = l.set j x := by
  intro l
  induction l with
  | nil => intro j hj; simp at hj
  | cons a t ih =>
    intro j hj
    cases j with
    | zero => rfl
    | succ k =>
      have hk : k < t.length := by simpa using hj
      show ((a :: t.eraseIdx k) : List α).insertIdx (k + 1) x = a :: t.set k x
      rw [List.insertIdx_succ_cons, ih k hk]

theorem updateFirst_find? (lbl : String) (f : IParentCategory → IParentCategory)
    (hf : ∀ p, (f p).label = p.label) :
    ∀ (ps : List IParentCategory) (pf : IParentCategory),
      ps.find? (fun item => item.label = lbl) = some pf →
      (updateFirst lbl f ps).find? (fun item => item.label = lbl) = some (f pf) := by
  intro ps
  induction ps with
  | nil => intro pf hpf; simp at hpf
  | cons p t ih =>
    intro pf hpf
    by_cases hp : p.label = lbl
    · rw [List.find?_cons_of_pos _ (by simpa using hp)] at hpf
      have hpf2 : pf = p := by simpa using hpf.symm
      rw [show updateFirst lbl f (p :: t) = f p :: t from by simp [updateFirst, hp]]
      rw [List.find?_cons_of_pos _ (by simp [hf, hp])]
      rw [hpf2]
    · rw [List.find?_cons_of_neg _ (by simpa using hp)] at hpf
      rw [show updateFirst lbl f (p :: t) = p :: updateFirst lbl f t from by
        simp [updateFirst, hp]]
      rw [List.find?_cons_of_neg _ (by simpa using hp)]
      exact ih pf hpf

/-- C8: copying a child and then pasting it onto a slot replaces the child
    previously at the target index with a child equal, label and full
    value-slot list, to the copied child as it was at copy time, and leaves the
    target parent's other children unchanged: the target parent's child list
    becomes its old list with index j overwritten by the copied child. -/
theorem copy_paste_spec (s : AppState) (pSrc pDst : String) (i j : Nat)
    (sdSrc sdDst : Side) (pf qf : IParentCategory) (c : IChildCategory) (s1 : AppState)
    (hfind : (s.sideParents sdSrc).find? (fun item => item.label = pSrc) = some pf)
    (hget : pf.children[i]? = some c)
    (hcopy : copyChild s pSrc i sdSrc = some s1)
    (hq : (s1.sideParents sdDst).find? (fun item => item.label = pDst) = some qf)
    (hj : j < qf.children.length) :
    ((pasteChild s1 pDst j sdDst).sideParents sdDst).find?
        (fun item => item.label = pDst) =
      some ⟨qf.label, qf.children.set j c⟩ := by
  have hs1 : s1 = { s with copyData := some c } := by
    unfold copyChild at hcopy
    simp only [hfind, hget, Option.some.injEq] at hcopy
    exact hcopy.symm
  have hbuf : s1.copyData = some c := by rw [hs1]
  have hrebuilt : (⟨c.label, c.values.map fun data => ⟨data.time, data.value⟩⟩ :
      IChildCategory) = c := by
    rw [map_mk_time_value]
  have hpaste : (pasteChild s1 pDst j sdDst).sideParents sdDst =
      updateFirst pDst (fun p =>
        { p with children := ((p.children.eraseIdx j).insertIdx j
            (⟨c.label, c.values.map fun data => ⟨data.time, data.value⟩⟩ : IChildCategory)) })
        (s1.sideParents sdDst) := by
    unfold pasteChild
    rw [hbuf]
    cases sdDst <;> rfl
  rw [hpaste]
  simp only [hrebuilt]
  rw [updateFirst_find? pDst
    (fun p => { p with children := (p.children.eraseIdx j).insertIdx j c })
    (fun p => rfl) (s1.sideParents sdDst) qf hq]
  rw [insertIdx_eraseIdx_set c qf.children j hj]

/-- Witness for C8: copy the single child of income parent Inc and paste it
    over the single child of expense parent Exp. -/
theorem copy_paste_spec_witness :
    ((AppState.mk [⟨("Inc"), [⟨("src"), [⟨⟨2024, 1⟩, RawVal.num 3⟩]⟩]⟩]
          [⟨("Exp"), [⟨("dst"), [⟨⟨2024, 1⟩, RawVal.num 9⟩]⟩]⟩] none
          [⟨2024, 1⟩]).sideParents Side.income).find?
        (fun item => item.label = ("Inc")) =
      some ⟨("Inc"), [⟨("src"), [⟨⟨2024, 1⟩, RawVal.num 3⟩]⟩]⟩ ∧
    ((pasteChild
        (AppState.mk [⟨("Inc"), [⟨("src"), [⟨⟨2024, 1⟩, RawVal.num 3⟩]⟩]⟩]
          [⟨("Exp"), [⟨("dst"), [⟨⟨2024, 1⟩, RawVal.num 9⟩]⟩]⟩]
          (some ⟨("src"), [⟨⟨2024, 1⟩, RawVal.num 3⟩]⟩) [⟨2024, 1⟩])
        ("Exp") 0 Side.expense).sideParents Side.expense).find?
        (fun item => item.label = ("Exp")) =
      some ⟨("Exp"),
        ([⟨("dst"), [⟨⟨2024, 1⟩, RawVal.num 9⟩]⟩] :
          List IChildCategory).set 0 ⟨("src"), [⟨⟨2024, 1⟩, RawVal.num 3⟩]⟩⟩ :=
  ⟨by decide,
    copy_paste_spec
      (AppState.mk [⟨("Inc"), [⟨("src"), [⟨⟨2024, 1⟩, RawVal.num 3⟩]⟩]⟩]
        [⟨("Exp"), [⟨("dst"), [⟨⟨2024, 1⟩, RawVal.num 9⟩]⟩]⟩] none [⟨2024, 1⟩])
      ("Inc") ("Exp") 0 0 Side.income Side.expense
      ⟨("Inc"), [⟨("src"), [⟨⟨2024, 1⟩, RawVal.num 3⟩]⟩]⟩
      ⟨("Exp"), [⟨("dst"), [⟨⟨2024, 1⟩, RawVal.num 9⟩]⟩]⟩
      ⟨("src"), [⟨⟨2024, 1⟩, RawVal.num 3⟩]⟩
      (AppState.mk [⟨("Inc"), [⟨("src"), [⟨⟨2024, 1⟩, RawVal.num 3⟩]⟩]⟩]
        [⟨("Exp"), [⟨("dst"), [⟨⟨2024, 1⟩, RawVal.num 9⟩]⟩]⟩]
        (some ⟨("src"), [⟨⟨2024, 1⟩, RawVal.num 3⟩]⟩) [⟨2024, 1⟩])
      (by decide) (by decide) (by decide) (by decide) (by decide)⟩

/- Index-wise behaviour of updateFirst under a label-preserving update. -/

theorem updateFirst_length (lbl : String) (f : IParentCategory → IParentCategory) :
    ∀ ps : List IParentCategory, (updateFirst lbl f ps).length = ps.length := by
  intro ps
  induction ps with
  | nil => rfl
  | cons p t ih =>
    show (if p.label = lbl then f p :: t else p :: updateFirst lbl f t).length = t.length + 1
    split
    · rfl
    · simpa using ih

theorem updateFirst_label (lbl : String) (f : IParentCategory → IParentCategory)
    (hf : ∀ p, (f p).label = p.label) :
    ∀ (ps : List IParentCategory) (j : Nat),
      ((updateFirst lbl f ps)[j]?.map fun q => q.label) =
        (ps[j]?.map fun q => q.label) := by
  intro ps
  induction ps with
  | nil => intro j; rfl
  | cons p t ih =>
    intro j
    by_cases hp : p.label = lbl
    · rw [show updateFirst lbl f (p :: t) = f p :: t from by simp [updateFirst, hp]]
      cases j with
      | zero => simp [hf]
      | succ k => simp
    · rw [show updateFirst lbl f (p :: t) = p :: updateFirst lbl f t from by
        simp [updateFirst, hp]]
      cases j with
      | zero => simp
      | succ k =>
        simp only [List.getElem?_cons_succ]
        exact ih k

theorem updateFirst_get_ne (lbl : String) (f : IParentCategory → IParentCategory) :
    ∀ (ps : List IParentCategory) (j : Nat) (q : IParentCategory),
      ps[j]? = some q → q.label ≠ lbl →
      (updateFirst lbl f ps)[j]? = some q := by
  intro ps
  induction ps with
  | nil => intro j q hq; simp at hq
  | cons p t ih =>
    intro j q hq hne
    by_cases hp : p.label = lbl
    · rw [show updateFirst lbl f (p :: t) = f p :: t from by simp [updateFirst, hp]]
      cases j with
      | zero =>
        have hqp : p = q := by simpa using hq
        rw [← hqp] at hne
        exact absurd hp hne
      | succ k => simpa using hq
    · rw [show updateFirst lbl f (p :: t) = p :: updateFirst lbl f t from by
        simp [updateFirst, hp]]
      cases j with
      | zero => simpa using hq
      | succ k =>
        simp only [List.getElem?_cons_succ] at hq ⊢
        exact ih k q hq hne

theorem updateFirst_get_first (lbl : String) (f : IParentCategory → IParentCategory) :
    ∀ (ps : List IParentCategory) (j : Nat) (q : IParentCategory),
      ps[j]? = some q → q.label = lbl →
      (∀ k r, k < j → ps[k]? = some r → r.label ≠ lbl) →
      (updateFirst lbl f ps)[j]? = some (f q) := by
  intro ps
  induction ps with
  | nil => intro j q hq; simp at hq
  | cons p t ih =>
    intro j q hq heq hfirst
    by_cases hp : p.label = lbl
    · rw [show updateFirst lbl f (p :: t) = f p :: t from by simp [updateFirst, hp]]
      cases j with
      | zero =>
        have hqp : p = q := by simpa using hq
        rw [← hqp]
        simp
      | succ k => exact absurd hp (hfirst 0 p (by omega) (by simp))
    · rw [show updateFirst lbl f (p :: t) = p :: updateFirst lbl f t from by
        simp [updateFirst, hp]]
      cases j with
      | zero =>
        have hqp : p = q := by simpa using hq
        rw [← hqp] at heq
        exact absurd heq hp
      | succ k =>
        simp only [List.getElem?_cons_succ] at hq ⊢
        exact ih k q hq heq
          (fun m r hm hr => hfirst (m + 1) r (by omega) (by simpa using hr))

/- Behaviour of the add-child fold over a list of parent labels. -/

theorem foldPush_length (rg : List Month) :
    ∀ (ls : List String) (ps : List IParentCategory),
      (ls.foldl (fun ps2 lbl => pushChild rg lbl ps2) ps).length = ps.length := by
  intro ls
  induction ls with
  | nil => intro ps; rfl
  | cons lbl rest ih =>
    intro ps
    rw [List.foldl_cons, ih (pushChild rg lbl ps)]
    exact updateFirst_length lbl _ ps

theorem foldPush_label (rg : List Month) :
    ∀ (ls : List String) (ps : List IParentCategory) (j : Nat),
      ((ls.foldl (fun ps2 lbl => pushChild rg lbl ps2) ps)[j]?.map fun q => q.label) =
        (ps[j]?.map fun q => q.label) := by
  intro ls
  induction ls with
  | nil => intro ps j; rfl
  | cons lbl rest ih =>
    intro ps j
    rw [List.foldl_cons, ih (pushChild rg lbl ps) j]
    exact updateFirst_label lbl
      (fun p => { p with children := p.children ++ [newChild rg] }) (fun p => rfl) ps j

theorem foldPush_not_mem (rg : List Month) :
    ∀ (ls : List String) (ps : List IParentCategory) (j : Nat) (q : IParentCategory),
      ps[j]? = some q → q.label ∉ ls →
      (ls.foldl (fun ps2 lbl => pushChild rg lbl ps2) ps)[j]? = some q := by
  intro ls
  induction ls with
  | nil => intro ps j q hq _; exact hq
  | cons lbl rest ih =>
    intro ps j q hq hnot
    rw [List.foldl_cons]
    have hne : q.label ≠ lbl := fun hc => hnot (by rw [hc]; exact List.mem_cons_self lbl rest)
    have h1 : (pushChild rg lbl ps)[j]? = some q :=
      updateFirst_get_ne lbl _ ps j q hq hne
    exact ih (pushChild rg lbl ps) j q h1
      (fun hc => hnot (List.mem_cons_of_mem lbl hc))

theorem foldPush_first_count (rg : List Month) :
    ∀ (ls : List String) (ps : List IParentCategory) (j : Nat) (q : IParentCategory),
      ps[j]? = some q →
      (∀ k r, k < j → ps[k]? = some r → r.label ≠ q.label) →
      ∃ q2, (ls.foldl (fun ps2 lbl => pushChild rg lbl ps2) ps)[j]? = some q2 ∧
        q2.label = q.label ∧
        q2.children = q.children ++ List.replicate (ls.count q.label) (newChild rg) := by
  intro ls
  induction ls with
  | nil =>
    intro ps j q hq _
    exact ⟨q, hq, rfl, by simp⟩
  | cons lbl rest ih =>
    intro ps j q hq hfirst
    rw [List.foldl_cons]
    by_cases hl : lbl = q.label
    · -- the head label hits the entry at j: one child is pushed, then recurse
      have hstep : (pushChild rg lbl ps)[j]? =
          some { q with children := q.children ++ [newChild rg] } :=
        updateFirst_get_first lbl _ ps j q hq hl.symm
          (fun k r hk hr => by rw [hl]; exact hfirst k r hk hr)
      have hfirst2 : ∀ k r, k < j → (pushChild rg lbl ps)[k]? = some r →
          r.label ≠ ({ q with children := q.children ++ [newChild rg] } :
            IParentCategory).label := by
        intro k r hk hr
        have hmap : ((pushChild rg lbl ps)[k]?.map fun p => p.label) =
            (ps[k]?.map fun p => p.label) :=
          updateFirst_label lbl
            (fun p => { p with children := p.children ++ [newChild rg] }) (fun p => rfl) ps k
        rw [hr] at hmap
        match hmem : ps[k]? with
        | none => rw [hmem] at hmap; simp at hmap
        | some r0 =>
          rw [hmem] at hmap
          have hrl : r.label = r0.label := by simpa using hmap
          rw [hrl]
          exact hfirst k r0 hk hmem
      obtain ⟨q2, hq2, hlab, hch⟩ := ih (pushChild rg lbl ps) j _ hstep hfirst2
      refine ⟨q2, hq2, hlab, ?_⟩
      rw [hch]
      show (q.children ++ [newChild rg]) ++
          List.replicate (rest.count q.label) (newChild rg) =
        q.children ++ List.replicate ((lbl :: rest).count q.label) (newChild rg)
      have hcount : (lbl :: rest).count q.label = rest.count q.label + 1 := by
        rw [hl]
        simp [List.count_cons]
      rw [hcount, List.append_assoc, List.singleton_append, ← List.replicate_succ]
    · -- the head label misses the entry at j: it is untouched, recurse
      have hstep : (pushChild rg lbl ps)[j]? = some q :=
        updateFirst_get_ne lbl _ ps j q hq (fun hc => hl hc.symm)
      have hfirst2 : ∀ k r, k < j → (pushChild rg lbl ps)[k]? = some r →
          r.label ≠ q.label := by
        intro k r hk hr
        have hmap : ((pushChild rg lbl ps)[k]?.map fun p => p.label) =
            (ps[k]?.map fun p => p.label) :=
          updateFirst_label lbl
            (fun p => { p with children := p.children ++ [newChild rg] }) (fun p => rfl) ps k
        rw [hr] at hmap
        match hmem : ps[k]? with
        | none => rw [hmem] at hmap; simp at hmap
        | some r0 =>
          rw [hmem] at hmap
          have hrl : r.label = r0.label := by simpa using hmap
          rw [hrl]
          exact hfirst k r0 hk hmem
      obtain ⟨q2, hq2, hlab, hch⟩ := ih (pushChild rg lbl ps) j q hstep hfirst2
      refine ⟨q2, hq2, hlab, ?_⟩
      rw [hch]
      have hcount : (lbl :: rest).count q.label = rest.count q.label := by
        simp [List.count_cons, hl]
      rw [hcount]

/-- C10: with no explicit parent argument, addExpenseChild iterates the income
    parent labels, not the expense ones: the expense list keeps its length and
    the income tree is untouched; an expense parent whose label matches no
    income parent keeps exactly its old entry (no child is added to it); and
    the first expense parent bearing a label that does occur among the income
    parents gains one fresh child per occurrence of that label. -/
theorem addExpenseChild_uses_income_labels (s : AppState) (j : Nat)
    (q : IParentCategory) (hq : s.expenseParents[j]? = some q) :
    (addExpenseChild s none none).expenseParents.length = s.expenseParents.length ∧
    (addExpenseChild s none none).incomeParents = s.incomeParents ∧
    (q.label ∉ s.incomeParents.map (fun item => item.label) →
      (addExpenseChild s none none).expenseParents[j]? = some q) ∧
    ((∀ k r, k < j → s.expenseParents[k]? = some r → r.label ≠ q.label) →
      ∃ q2, (addExpenseChild s none none).expenseParents[j]? = some q2 ∧
        q2.label = q.label ∧
        q2.children = q.children ++
          List.replicate ((s.incomeParents.map (fun item => item.label)).count q.label)
            (newChild s.ranges)) := by
  have he : (addExpenseChild s none none).expenseParents =
      (s.incomeParents.map fun item => item.label).foldl
        (fun ps lbl => pushChild s.ranges lbl ps) s.expenseParents := rfl
  refine ⟨?_, rfl, ?_, ?_⟩
  · rw [he]
    exact foldPush_length s.ranges _ s.expenseParents
  · intro hn
    rw [he]
    exact foldPush_not_mem s.ranges _ s.expenseParents j q hq hn
  · intro hfirst
    rw [he]
    exact foldPush_first_count s.ranges _ s.expenseParents j q hq hfirst

/-- Witness for C10: income parents [A], expense parents [A, B]: expense parent
    B (label unknown to the income side) is untouched, expense parent A gains
    one child per occurrence of A among the income labels. -/
theorem addExpenseChild_uses_income_labels_witness :
    ((AppState.mk [⟨("A"), []⟩] [⟨("A"), []⟩, ⟨("B"), []⟩] none
        [⟨2024, 1⟩]).expenseParents[1]? = some ⟨("B"), []⟩ ∧
      (("B") : String) ∉ ([⟨("A"), []⟩] :
        List IParentCategory).map (fun item => item.label)) ∧
    (addExpenseChild (AppState.mk [⟨("A"), []⟩] [⟨("A"), []⟩, ⟨("B"), []⟩] none
        [⟨2024, 1⟩]) none none).expenseParents[1]? = some ⟨("B"), []⟩ ∧
    (∃ q2, (addExpenseChild (AppState.mk [⟨("A"), []⟩] [⟨("A"), []⟩, ⟨("B"), []⟩] none
        [⟨2024, 1⟩]) none none).expenseParents[0]? = some q2 ∧
      q2.label = (⟨("A"), ([] : List IChildCategory)⟩ : IParentCategory).label ∧
      q2.children = (⟨("A"), ([] : List IChildCategory)⟩ : IParentCategory).children ++
        List.replicate ((([⟨("A"), []⟩] : List IParentCategory).map
            (fun item => item.label)).count
          (⟨("A"), ([] : List IChildCategory)⟩ : IParentCategory).label)
          (newChild [⟨2024, 1⟩])) :=
  ⟨⟨by decide, by decide⟩,
    (addExpenseChild_uses_income_labels
      (AppState.mk [⟨("A"), []⟩] [⟨("A"), []⟩, ⟨("B"), []⟩] none [⟨2024, 1⟩])
      1 ⟨("B"), []⟩ (by decide)).2.2.1 (by decide),
    (addExpenseChild_uses_income_labels
      (AppState.mk [⟨("A"), []⟩] [⟨("A"), []⟩, ⟨("B"), []⟩] none [⟨2024, 1⟩])
      0 ⟨("A"), []⟩ (by decide)).2.2.2
      (fun k r hk hr => absurd hk (Nat.not_lt_zero k))⟩

end Budget
